import Mathlib

/-!
A verification development for the text_editor plugin's core file
operations: the line reader (file_ops.read_file), the writer
(file_ops.write_file), the edit normalizer/validator
(file_ops.validate_edits) and the two patch appliers
(file_ops.apply_patch and rfc_text_editor.apply_patch_impl).

Python strings are modelled as Lean String, file contents as String,
the filesystem as a map from path to optional content.  The token
counter and the TRIM_BUFFER truncation arithmetic live in the external
python/helpers/tokens module (the spec's external Token Oracle), so
they are parameters of the reader model.
-/

deriving instance DecidableEq for Except

namespace TextEditor

/-! ## Python string primitives -/

/-- Python s.count(c) for a single character. -/
def pyCountChar (s : String) (c : Char) : Nat :=
  s.toList.count c

/-- Python s.endswith(c) for a single character. -/
def pyEndsWithChar (s : String) (c : Char) : Bool :=
  s.toList.getLast? = some c

/-- Python s[:n] (character-count truncation). -/
def pyTake (s : String) (n : Nat) : String :=
  String.mk (s.toList.take n)

/-- Python s.rstrip(cs): drop trailing characters that are in cs. -/
def pyRstrip (s : String) (cs : List Char) : String :=
  String.mk ((s.toList.reverse.dropWhile (fun c => cs.contains c)).reverse)

/-- Python sep.join(parts). -/
def pyJoin (sep : String) : List String → String
  | [] => ""
  | [x] => x
  | x :: y :: rest => x ++ sep ++ pyJoin sep (y :: rest)

/-- Helper for pyReadLines: split after every newline character,
keeping the newline, accumulating the current line in reverse. -/
def pyReadLinesAux : List Char → List Char → List String
  | [], acc => if acc.isEmpty then [] else [String.mk acc.reverse]
  | c :: rest, acc =>
    if c = '\n' then
      String.mk (acc.reverse ++ ['\n']) :: pyReadLinesAux rest []
    else
      pyReadLinesAux rest (c :: acc)

/-- Python f.readlines(): split the content into lines, each keeping
its trailing newline; a final fragment without a newline is a line. -/
def pyReadLines (s : String) : List String :=
  pyReadLinesAux s.toList []

/-- Normalise one Python slice index against a list length:
negative indices count from the end (clamped at 0), non-negative
ones are clamped at the length. -/
def pySliceIdx (len : Nat) (i : Int) : Nat :=
  if i < 0 then ((len : Int) + i).toNat else min i.toNat len

/-- Python l[a:b] on a list. -/
def pySlice {α : Type} (l : List α) (a b : Int) : List α :=
  let s := pySliceIdx l.length a
  let e := pySliceIdx l.length b
  (l.drop s).take (e - s)

/-- is_binary from file_ops.py (and inline in rfc_text_editor.py):
a null byte in the first 8192 bytes of the file.  File contents are
modelled at character granularity. -/
def isBinaryStr (content : String) : Bool :=
  (content.toList.take 8192).contains '\x00'

/-- _count_content_lines from file_ops.py / rfc_text_editor.py:
content.count newline + 1 extra if content is non-empty and not
newline-terminated. -/
def countContentLines (content : String) : Nat :=
  pyCountChar content '\n' +
    (if content ≠ "" ∧ pyEndsWithChar content '\n' = false then 1 else 0)

/-! ## Edit model (validate_edits, file_ops.py) -/

/-- A raw edit request: a JSON-like record with optional from, to and
content fields, as consumed by validate_edits. -/
structure RawEdit where
  fromVal : Option Int
  toVal : Option Int
  contentVal : Option String
deriving Repr, DecidableEq

/-- A normalized edit as produced by validate_edits: for an insert,
to = from - 1 marks a zero-width range. -/
structure Edit where
  frm : Int
  toLn : Int
  content : String
  insert : Bool
deriving Repr, DecidableEq

/-- The per-edit normalisation step of validate_edits: from defaults
to -1 (error when negative); to defaults to -1; to negative or less
than from marks a pure insert and is normalised to from - 1. -/
def parseOne (e : RawEdit) : Except String Edit :=
  let frm := e.fromVal.getD (-1)
  if frm < 0 then
    Except.error ("edit missing from: from " ++ toString frm)
  else
    let toV := e.toVal.getD (-1)
    if toV < 0 ∨ toV < frm then
      Except.ok { frm := frm, toLn := frm - 1,
                  content := e.contentVal.getD "", insert := true }
    else
      Except.ok { frm := frm, toLn := toV,
                  content := e.contentVal.getD "", insert := false }

/-- The parsing loop of validate_edits: first failure wins. -/
def parseRawEdits : List RawEdit → Except String (List Edit)
  | [] => Except.ok []
  | e :: rest =>
    match parseOne e with
    | Except.error msg => Except.error msg
    | Except.ok ed =>
      match parseRawEdits rest with
      | Except.error msg => Except.error msg
      | Except.ok eds => Except.ok (ed :: eds)

/-- The sort key of validate_edits: lexicographic on
(from, 0 if insert else 1).  Python's list.sort is stable, as is the
insertion sort used to model it. -/
def editLe (a b : Edit) : Prop :=
  a.frm < b.frm ∨
    (a.frm = b.frm ∧
      (if a.insert then 0 else 1 : Nat) ≤ (if b.insert then 0 else 1))

instance editLe.decidableRel : DecidableRel editLe := fun a b => by
  unfold editLe
  infer_instance

instance editLe.isTotal : IsTotal Edit editLe :=
  ⟨by
    intro a b
    unfold editLe
    rcases lt_trichotomy a.frm b.frm with h | h | h
    · exact Or.inl (Or.inl h)
    · rcases Nat.le_total (if a.insert then 0 else 1) (if b.insert then 0 else 1) with
        hk | hk
      · exact Or.inl (Or.inr ⟨h, hk⟩)
      · exact Or.inr (Or.inr ⟨h.symm, hk⟩)
    · exact Or.inr (Or.inl h)⟩

instance editLe.isTrans : IsTrans Edit editLe :=
  ⟨by
    intro a b c hab hbc
    unfold editLe at *
    rcases hab with h1 | ⟨h1, k1⟩ <;> rcases hbc with h2 | ⟨h2, k2⟩
    · exact Or.inl (h1.trans h2)
    · exact Or.inl (h2 ▸ h1)
    · exact Or.inl (h1 ▸ h2)
    · exact Or.inr ⟨h1.trans h2, k1.trans k2⟩⟩

/-- The overlap error message of validate_edits. -/
def overlapMsg (p c : Edit) : String :=
  "overlapping edits: edit at " ++ toString p.frm ++ " (to " ++
    toString p.toLn ++ ") and " ++ toString c.frm ++ " (to " ++
    toString c.toLn ++ ")"

/-- The adjacent-pair scan of validate_edits: skip a pair whose
earlier element is an insert; otherwise report the first pair where
the later edit starts at or before the earlier edit's to. -/
def checkOverlaps : List Edit → Option String
  | p :: c :: rest =>
    if p.insert then checkOverlaps (c :: rest)
    else if c.frm ≤ p.toLn then some (overlapMsg p c)
    else checkOverlaps (c :: rest)
  | _ => none

/-- validate_edits from file_ops.py: reject an empty list, parse each
raw edit, sort by (from, insert-before-replace) and scan adjacent
pairs for overlaps.  Returns (parsed edits, error string). -/
def validate_edits (edits : List RawEdit) : List Edit × String :=
  if edits.isEmpty then ([], "edits array is required")
  else
    match parseRawEdits edits with
    | Except.error msg => ([], msg)
    | Except.ok parsed =>
      let sorted := List.insertionSort editLe parsed
      match checkOverlaps sorted with
      | some msg => ([], msg)
      | none => (sorted, "")

/-! ## Patch appliers

The streaming loop bodies of file_ops.apply_patch and
rfc_text_editor.apply_patch_impl are textually identical; they are
embedded once as applyLoop.  The two appliers differ only in the
starting value of line_no (0 in file_ops, 1 in rfc_text_editor) and
in the newline canonicalisation performed by apply_patch_impl. -/

/-- The inner while loop: emit every insert edit at the front of the
list whose from equals the current line_no; write its content when
non-empty, counting _count_content_lines.  Returns (emitted text,
lines counted, remaining edits). -/
def takeInserts : List Edit → Int → String × Nat × List Edit
  | e :: rest, lineNo =>
    if e.insert = true ∧ e.frm = lineNo then
      let p : String × Nat :=
        if e.content ≠ "" then (e.content, countContentLines e.content)
        else ("", 0)
      let out := takeInserts rest lineNo
      (p.1 ++ out.1, p.2 + out.2.1, out.2.2)
    else ("", 0, e :: rest)
  | [], _ => ("", 0, [])

/-- The trailing while loop: flush all remaining edits after the
source is exhausted, writing each non-empty content. -/
def flushEdits : List Edit → String × Nat
  | [] => ("", 0)
  | e :: rest =>
    let p : String × Nat :=
      if e.content ≠ "" then (e.content, countContentLines e.content)
      else ("", 0)
    let out := flushEdits rest
    (p.1 ++ out.1, p.2 + out.2)

/-- The per-line streaming loop shared by apply_patch (file_ops.py)
and apply_patch_impl (rfc_text_editor.py): at each original line,
emit matching inserts, then either consume the line inside a
replace/delete range (emitting the content once at the range start
and advancing the edit at the range end), or copy it unchanged.
Returns (output text, total lines written). -/
def applyLoop : List String → List Edit → Int → String × Nat
  | [], edits, _ => flushEdits edits
  | rawLine :: rest, edits, lineNo =>
    let ins := takeInserts edits lineNo
    match ins.2.2 with
    | e :: restEdits =>
      if e.insert = false ∧ e.frm ≤ lineNo ∧ lineNo ≤ e.toLn then
        let rep : String × Nat :=
          if lineNo = e.frm ∧ e.content ≠ "" then
            (e.content, countContentLines e.content)
          else ("", 0)
        let edits2 := if lineNo = e.toLn then restEdits else e :: restEdits
        let tail := applyLoop rest edits2 (lineNo + 1)
        (ins.1 ++ rep.1 ++ tail.1, ins.2.1 + rep.2 + tail.2)
      else
        let tail := applyLoop rest (e :: restEdits) (lineNo + 1)
        (ins.1 ++ rawLine ++ tail.1, ins.2.1 + 1 + tail.2)
    | [] =>
      let tail := applyLoop rest [] (lineNo + 1)
      (ins.1 ++ rawLine ++ tail.1, ins.2.1 + 1 + tail.2)

/-- The pure core of apply_patch (file_ops.py): stream the original
lines through the edit list with a 0-based line cursor (line_no
starts at 0). -/
def applyPatchCore (lines : List String) (edits : List Edit) :
    String × Nat :=
  applyLoop lines edits 0

/-- The canonicalisation step of apply_patch_impl
(rfc_text_editor.py lines 119-122): append a newline to any
non-empty content that does not already end in one. -/
def canonEdit (e : Edit) : Edit :=
  if e.content ≠ "" ∧ pyEndsWithChar e.content '\n' = false then
    { e with content := e.content ++ "\n" }
  else e

/-- The pure core of apply_patch_impl (rfc_text_editor.py):
canonicalise every edit's content, then stream with a 1-based line
cursor (line_no starts at 1). -/
def applyPatchImplCore (lines : List String) (edits : List Edit) :
    String × Nat :=
  applyLoop lines (edits.map canonEdit) 1

/-- Decrement both endpoints of an edit by one line: converts an edit
meant for the 1-based cursor of apply_patch_impl into one for the
0-based cursor of apply_patch. -/
def shiftEdit (e : Edit) : Edit :=
  { e with frm := e.frm - 1, toLn := e.toLn - 1 }

/-! ## Write trace

A Piece records one dst.write call of the streaming loop: either an
edit's content block or a copied original line.  The trace functions
repeat the applyLoop recursion, recording the writes instead of
concatenating them; the lemma applyLoop_eq_trace ties them. -/

inductive Piece where
  | block (content : String)
  | line (raw : String)
deriving Repr, DecidableEq

/-- The text a piece writes. -/
def pieceText : Piece → String
  | Piece.block c => c
  | Piece.line raw => raw

/-- The line count a piece contributes to total_written: a content
block counts _count_content_lines, a copied line counts 1. -/
def pieceCount : Piece → Nat
  | Piece.block c => countContentLines c
  | Piece.line _ => 1

/-- The concatenation of the texts a sequence of pieces writes. -/
def concatTexts : List Piece → String
  | [] => ""
  | p :: rest => pieceText p ++ concatTexts rest

/-- Trace of takeInserts: one block per insert with non-empty
content. -/
def takeInsertsTrace : List Edit → Int → List Piece × List Edit
  | e :: rest, lineNo =>
    if e.insert = true ∧ e.frm = lineNo then
      let p : List Piece :=
        if e.content ≠ "" then [Piece.block e.content] else []
      let out := takeInsertsTrace rest lineNo
      (p ++ out.1, out.2)
    else ([], e :: rest)
  | [], _ => ([], [])

/-- Trace of flushEdits. -/
def flushTrace : List Edit → List Piece
  | [] => []
  | e :: rest =>
    let p : List Piece :=
      if e.content ≠ "" then [Piece.block e.content] else []
    p ++ flushTrace rest

/-- Trace of applyLoop: the sequence of dst.write calls. -/
def applyLoopTrace : List String → List Edit → Int → List Piece
  | [], edits, _ => flushTrace edits
  | rawLine :: rest, edits, lineNo =>
    let ins := takeInsertsTrace edits lineNo
    match ins.2 with
    | e :: restEdits =>
      if e.insert = false ∧ e.frm ≤ lineNo ∧ lineNo ≤ e.toLn then
        let rep : List Piece :=
          if lineNo = e.frm ∧ e.content ≠ "" then [Piece.block e.content]
          else []
        let edits2 := if lineNo = e.toLn then restEdits else e :: restEdits
        ins.1 ++ rep ++ applyLoopTrace rest edits2 (lineNo + 1)
      else
        ins.1 ++ [Piece.line rawLine] ++ applyLoopTrace rest (e :: restEdits) (lineNo + 1)
    | [] =>
      ins.1 ++ [Piece.line rawLine] ++ applyLoopTrace rest [] (lineNo + 1)

/-! ## Filesystem model and apply_patch with faults -/

/-- A filesystem: path to optional content. -/
def FS : Type := String → Option String

/-- Create, overwrite or (with none) unlink one path. -/
def fsSet (fs : FS) (p : String) (v : Option String) : FS :=
  fun q => if q = p then v else fs q

/-- A one-file filesystem, for concrete instances. -/
def singleFS (p c : String) : FS :=
  fun q => if q = p then some c else none

/-- apply_patch from file_ops.py at filesystem level.  mkstemp
creates tmpPath fresh; the source file is opened (failure to open
raises, is caught, unlinks the temp file and propagates); each
dst.write of the streaming loop may raise, modelled by failAt = the
index of the first failing write, if any; on such a failure the temp
file holds the writes made so far, is unlinked, and the error
propagates; on success the fully written temp file is atomically
renamed over path.  apply_patch_impl (rfc_text_editor.py) has the
same body around applyLoop with line_no 1 and canonicalised edits. -/
def apply_patch (fs : FS) (path tmpPath : String) (edits : List Edit)
    (failAt : Option Nat) : FS × Except String Nat :=
  let fs1 := fsSet fs tmpPath (some "")
  match fs1 path with
  | none => (fsSet fs1 tmpPath none, Except.error "file not found")
  | some content =>
    let pieces := applyLoopTrace (pyReadLines content) edits 0
    match failAt with
    | some k =>
      if k < pieces.length then
        let fs2 := fsSet fs1 tmpPath (some (concatTexts (pieces.take k)))
        (fsSet fs2 tmpPath none, Except.error "I/O error during write")
      else
        let res := applyLoop (pyReadLines content) edits 0
        (fsSet (fsSet fs1 tmpPath none) path (some res.1), Except.ok res.2)
    | none =>
      let res := applyLoop (pyReadLines content) edits 0
      (fsSet (fsSet fs1 tmpPath none) path (some res.1), Except.ok res.2)

/-! ## Reader and writer -/

/-- ReadResult from file_ops.py. -/
structure ReadResult where
  content : String := ""
  total_lines : Nat := 0
  warnings : String := ""
  error : String := ""
deriving Repr, DecidableEq

/-- The external token machinery (python/helpers/tokens): the token
counter count_tokens and the character-count truncation
int(max_line_tokens * chars_per_tok * TRIM_BUFFER), whose float
arithmetic is outside the shallow embedding.  keepChars receives
max_line_tokens, len(stripped) and line_tok. -/
structure TokenOracle where
  countTokens : String → Nat
  keepChars : Nat → Nat → Nat → Nat

/-- One line's strip step: raw_line.rstrip newline then rstrip
carriage return. -/
def stripLine (raw : String) : String :=
  pyRstrip (pyRstrip raw ['\n']) ['\r']

/-- The emission loop of read_file over the selected lines, carrying
line_no and running_tokens.  Returns (output lines, cropped line
numbers, trimmed_by_total).  Note the source appends to
cropped_lines before the total-budget check, so a line cropped and
then trimmed still appears among the cropped numbers. -/
def readLoop (ora : TokenOracle) (maxLineTokens maxTotal : Nat) :
    List String → Int → Nat → List String × List Int × Bool
  | [], _, _ => ([], [], false)
  | raw :: rest, lineNo, running =>
    let stripped := stripLine raw
    let tok := ora.countTokens stripped
    let strippedB :=
      if tok > maxLineTokens then
        pyTake stripped (ora.keepChars maxLineTokens stripped.length tok) ++ "..."
      else stripped
    let tokB := if tok > maxLineTokens then maxLineTokens else tok
    let cropHere : List Int := if tok > maxLineTokens then [lineNo] else []
    if running + tokB > maxTotal then
      ([], cropHere, true)
    else
      let out := readLoop ora maxLineTokens maxTotal rest (lineNo + 1) (running + tokB)
      ((toString lineNo ++ " " ++ strippedB) :: out.1,
        cropHere ++ out.2.1, out.2.2)

/-- The cropped-lines warning of read_file. -/
def cropWarn (nums : List Int) : String :=
  "long lines " ++ pyJoin " " (nums.map toString) ++
    " cropped - use terminal for precise manipulation"

/-- The total-budget warning of read_file; its argument is
actual_end = line_from + len(output_lines). -/
def trimWarn (actualEnd : Int) : String :=
  "output trimmed at line " ++ toString actualEnd ++
    " due to token limit - use line_from/line_to for remaining"

/-- The warning assembly of read_file. -/
def buildWarnStr (croppedLines : List Int) (trimmed : Bool)
    (actualEnd : Int) : String :=
  let warnParts : List String :=
    (if croppedLines.isEmpty then [] else [cropWarn croppedLines]) ++
      (if trimmed then [trimWarn actualEnd] else [])
  if warnParts.isEmpty then "" else "\nwarning: " ++ pyJoin "; " warnParts

/-- The line-selection step of read_file: clamp line_from at 0,
resolve a falsy line_to (0 or absent) to
min(line_from + default_line_count, total_lines), clamp line_to at
total_lines, and take all_lines[line_from:line_to].  Returns the
clamped line_from together with the selected lines. -/
def readSelection (allLines : List String) (lineFrom : Int)
    (lineTo : Option Int) (defaultLineCount : Nat) : Int × List String :=
  let totalLines := allLines.length
  let lineFrom2 := max lineFrom 0
  let lineTo1 : Int :=
    match lineTo with
    | none => min (lineFrom2 + (defaultLineCount : Int)) (totalLines : Int)
    | some t =>
      if t = 0 then min (lineFrom2 + (defaultLineCount : Int)) (totalLines : Int)
      else t
  let lineTo2 := min lineTo1 (totalLines : Int)
  (lineFrom2, pySlice allLines lineFrom2 lineTo2)

/-- read_file from file_ops.py: check existence and binaryness, read
all lines, select the requested window (readSelection), run the
token-budgeted emission loop (readLoop), and assemble content,
warnings and total_lines.  Path expansion is the identity in this
model. -/
def read_file (ora : TokenOracle) (fs : FS) (path : String)
    (lineFrom : Int) (lineTo : Option Int)
    (maxLineTokens defaultLineCount maxTotal : Nat) : ReadResult :=
  match fs path with
  | none => { error := "file not found" }
  | some content =>
    if isBinaryStr content then
      { error := "file appears binary, use terminal instead" }
    else
      let allLines := pyReadLines content
      let sel := readSelection allLines lineFrom lineTo defaultLineCount
      let res := readLoop ora maxLineTokens maxTotal sel.2 sel.1 0
      { content := pyJoin "\n" res.1,
        total_lines := allLines.length,
        warnings := buildWarnStr res.2.1 res.2.2 (sel.1 + res.1.length),
        error := "" }

/-- WriteResult from file_ops.py. -/
structure WriteResult where
  total_lines : Nat := 0
  error : String := ""
deriving Repr, DecidableEq

/-- write_file from file_ops.py: overwrite the file wholesale with
exactly content and return the content-line count (the same inline
formula as _count_content_lines).  Directory creation and I/O
failure are outside this model's claims; the success path is
modelled. -/
def write_file (fs : FS) (path content : String) : FS × WriteResult :=
  (fsSet fs path (some content),
    { total_lines :=
        pyCountChar content '\n' +
          (if content ≠ "" ∧ pyEndsWithChar content '\n' = false then 1 else 0),
      error := "" })

/-- A concrete token oracle for witnesses: one token per character,
truncation keeps the requested character count. -/
def lenOracle : TokenOracle :=
  { countTokens := fun s => s.length, keepChars := fun _ n _ => n }

/-- The numbered, stripped rendering of a list of lines starting at a
given display number: what readLoop emits when nothing is cropped or
trimmed. -/
def numberLines : List String → Int → List String
  | [], _ => []
  | raw :: rest, n => (toString n ++ " " ++ stripLine raw) :: numberLines rest (n + 1)

/-! ## Theorems -/

/-- C1 counterexample: on the file ["a","b","c"], the validated edit
{from:2, content:"X\n"} applied through apply_patch (file_ops.py)
does NOT produce ["a","X","b","c"]: the applier's line cursor starts
at 0, so from:2 denotes the third line. -/
theorem c1_insert_counterexample :
    pyReadLines
        (applyPatchCore ["a\n", "b\n", "c\n"]
          (validate_edits [⟨some 2, none, some "X\n"⟩]).1).1 ≠
      ["a\n", "X\n", "b\n", "c\n"] := by
  decide

/-- C1 amended: on the file ["a","b","c"], the validated edit
{from:2, content:"X\n"} produces ["a","b","X","c"] through
apply_patch (file_ops.py, 0-based line cursor) and ["a","X","b","c"]
through apply_patch_impl (rfc_text_editor.py, 1-based line cursor). -/
theorem c1_insert_amended :
    pyReadLines
        (applyPatchCore ["a\n", "b\n", "c\n"]
          (validate_edits [⟨some 2, none, some "X\n"⟩]).1).1 =
      ["a\n", "b\n", "X\n", "c\n"] ∧
    pyReadLines
        (applyPatchImplCore ["a\n", "b\n", "c\n"]
          (validate_edits [⟨some 2, none, some "X\n"⟩]).1).1 =
      ["a\n", "X\n", "b\n", "c\n"] := by
  constructor
  · decide
  · decide

/-- C2 counterexample: a 3-line file read with line_from = 1,
line_to = 3 and generous budgets yields 2 emitted lines (the slice
all_lines[1:3]), not line_to - line_from + 1 = 3 lines covering
1-based lines 1..3. -/
theorem c2_read_range_counterexample :
    ¬ (pyReadLines
          (read_file lenOracle (singleFS "f" "a\nb\nc\n") "f" 1 (some 3)
            500 100 4000).content).length = 3 ∧
    (read_file lenOracle (singleFS "f" "a\nb\nc\n") "f" 1 (some 3)
        500 100 4000).content = "1 b\n2 c" := by
  constructor
  · decide
  · decide

/-- C5 counterexample: the edit list [{from:1,to:3}, {from:2}] pairs
a non-insert edit with an insert whose from lies inside its range;
the claim says validate_edits returns no error, but the code reports
an overlap (only a pair whose earlier sorted element is an insert is
skipped). -/
theorem c5_insert_conflict_counterexample :
    (validate_edits
        [⟨some 1, some 3, some "y\n"⟩, ⟨some 2, none, some "X\n"⟩]).2 ≠
      "" := by
  decide

/-- C6 counterexample: apply_patch (file_ops.py) writes edit content
verbatim; an insert whose content "X" lacks a trailing newline fuses
with the following original line ("Xa"), unlike the canonicalised
application, so no newline is appended before writing there. -/
theorem c6_newline_canon_counterexample :
    (applyPatchCore ["a\n", "b\n"]
        (validate_edits [⟨some 0, none, some "X"⟩]).1).1 = "Xa\nb\n" ∧
    (applyPatchCore ["a\n", "b\n"]
        (((validate_edits [⟨some 0, none, some "X"⟩]).1).map canonEdit)).1 =
      "X\na\nb\n" ∧
    pyReadLines "Xa\nb\n" = ["Xa\n", "b\n"] ∧
    ("Xa\nb\n" : String) ≠ "X\na\nb\n" := by
  refine ⟨by decide, by decide, by decide, by decide⟩

/-- C7 counterexample: on the same file and the same validated edit
list, the two appliers disagree: apply_patch_impl
(rfc_text_editor.py) inserts before the second line where
apply_patch (file_ops.py) inserts before the third. -/
theorem c7_equivalence_counterexample :
    applyPatchImplCore ["a\n", "b\n", "c\n"]
        (validate_edits [⟨some 2, none, some "X\n"⟩]).1 ≠
      applyPatchCore ["a\n", "b\n", "c\n"]
        (validate_edits [⟨some 2, none, some "X\n"⟩]).1 := by
  decide

/-- C8 counterexample: write_file(path, "a\nb\n") reports
total_lines = 2, but read_file(path, 1, 2) with generous budgets
emits only "1 b" - the slice all_lines[1:2] skips the first line of
S, so the round trip with line_from = 1 does not reproduce S. -/
theorem c8_roundtrip_counterexample :
    (read_file lenOracle (write_file (fun _ => none) "f" "a\nb\n").1 "f"
        1 (some (write_file (fun _ => none) "f" "a\nb\n").2.total_lines)
        500 100 4000).content = "1 b" ∧
    (read_file lenOracle (write_file (fun _ => none) "f" "a\nb\n").1 "f"
        1 (some (write_file (fun _ => none) "f" "a\nb\n").2.total_lines)
        500 100 4000).content ≠ "1 a\n2 b" := by
  constructor
  · decide
  · decide

/-- readSelection treats an explicit line_to of 0 exactly like an
absent line_to: both are falsy in the source's if-not-line_to test. -/
theorem readSelection_some_zero (l : List String) (lf : Int) (dlc : Nat) :
    readSelection l lf (some 0) dlc = readSelection l lf none dlc := by
  simp [readSelection]

/-- C10: at the read interface, line_to = 0 behaves exactly like an
unset line_to: read_file returns the identical ReadResult, and the
resolved window is default_line_count lines starting at the clamped
line_from, clamped to the end of the file - not an empty selection
ending at line 0. -/
theorem c10_line_to_zero_default :
    (∀ (ora : TokenOracle) (fs : FS) (path : String) (lf : Int)
        (mlt dlc mtt : Nat),
      read_file ora fs path lf (some 0) mlt dlc mtt =
        read_file ora fs path lf none mlt dlc mtt) ∧
    (∀ (l : List String) (lf : Int) (dlc : Nat),
      (readSelection l lf (some 0) dlc).2.length =
        min ((max lf 0).toNat + dlc) l.length -
          min (max lf 0).toNat l.length) := by
  constructor
  · intro ora fs path lf mlt dlc mtt
    unfold read_file
    cases hfs : fs path with
    | none => rfl
    | some content => simp only [readSelection_some_zero]
  · intro l lf dlc
    simp only [readSelection, pySlice, pySliceIdx, List.length_take,
      List.length_drop]
    split_ifs <;> omega

/-- Updating a path changes that path. -/
theorem fsSet_self (fs : FS) (p : String) (v : Option String) :
    fsSet fs p v p = v := by
  simp [fsSet]

/-- Updating a path leaves every other path alone. -/
theorem fsSet_ne (fs : FS) (p : String) (v : Option String) (q : String)
    (h : q ≠ p) : fsSet fs p v q = fs q := by
  simp [fsSet, h]

/-- C3: apply_patch is atomic: whenever it fails (the source file
cannot be opened, or any write to the temporary file raises), the
error is propagated, the temporary file is deleted and the target
path's content is exactly what it was before the call; no other path
is ever touched; and on success the only change to the visible file
is the final rename, which installs the streamed output whole. -/
theorem c3_patch_atomicity (fs : FS) (path tmpPath : String)
    (edits : List Edit) (failAt : Option Nat) (hne : tmpPath ≠ path) :
    (∀ msg, (apply_patch fs path tmpPath edits failAt).2 = Except.error msg →
      (apply_patch fs path tmpPath edits failAt).1 path = fs path ∧
      (apply_patch fs path tmpPath edits failAt).1 tmpPath = none) ∧
    (∀ q, q ≠ path → q ≠ tmpPath →
      (apply_patch fs path tmpPath edits failAt).1 q = fs q) ∧
    (∀ content n, fs path = some content →
      (apply_patch fs path tmpPath edits failAt).2 = Except.ok n →
      (apply_patch fs path tmpPath edits failAt).1 path =
        some (applyLoop (pyReadLines content) edits 0).1 ∧
      n = (applyLoop (pyReadLines content) edits 0).2 ∧
      (apply_patch fs path tmpPath edits failAt).1 tmpPath = none) := by
  have hpt : path ≠ tmpPath := fun h => hne h.symm
  unfold apply_patch
  simp only [fsSet_ne _ _ _ _ hpt]
  cases hc : fs path with
  | none =>
    refine ⟨?_, ?_, ?_⟩
    · intro msg _
      exact ⟨by simp [fsSet_ne _ _ _ _ hpt, fsSet_ne _ _ _ _ hne, hc],
        by simp [fsSet_self]⟩
    · intro q hq1 hq2
      simp [fsSet_ne _ _ _ _ hq2]
    · intro content n hcontent _
      simp [hc] at hcontent
  | some content =>
    cases failAt with
    | none =>
      refine ⟨?_, ?_, ?_⟩
      · intro msg h
        simp at h
      · intro q hq1 hq2
        simp [fsSet_ne _ _ _ _ hq1, fsSet_ne _ _ _ _ hq2]
      · intro content2 n hcontent hok
        injection hcontent with hcc
        subst hcc
        simp at hok
        subst hok
        exact ⟨by simp [fsSet_self], rfl,
          by simp [fsSet_ne _ _ _ _ hne, fsSet_self]⟩
    | some k =>
      by_cases hk : k < (applyLoopTrace (pyReadLines content) edits 0).length
      · refine ⟨?_, ?_, ?_⟩
        · intro msg _
          exact ⟨by simp [hk, fsSet_ne _ _ _ _ hpt, hc],
            by simp [hk, fsSet_self]⟩
        · intro q hq1 hq2
          simp [hk, fsSet_ne _ _ _ _ hq2]
        · intro content2 n hcontent hok
          simp [hk] at hok
      · refine ⟨?_, ?_, ?_⟩
        · intro msg h
          simp [hk] at h
        · intro q hq1 hq2
          simp [hk, fsSet_ne _ _ _ _ hq1, fsSet_ne _ _ _ _ hq2]
        · intro content2 n hcontent hok
          injection hcontent with hcc
          subst hcc
          simp [hk] at hok
          subst hok
          exact ⟨by simp [hk, fsSet_self], rfl,
            by simp [hk, fsSet_ne _ _ _ _ hne, fsSet_self]⟩

/-- Closed instance of c3_patch_atomicity: a patch of the one-file
filesystem {"f": "a\n"} whose first temp-file write fails leaves "f"
holding "a\n" and no "f.tmp" behind. -/
theorem c3_patch_atomicity_witness :
    ("f.tmp" : String) ≠ "f" ∧
    (apply_patch (singleFS "f" "a\n") "f" "f.tmp" [] (some 0)).2 =
      Except.error "I/O error during write" ∧
    (apply_patch (singleFS "f" "a\n") "f" "f.tmp" [] (some 0)).1 "f" =
      singleFS "f" "a\n" "f" ∧
    (apply_patch (singleFS "f" "a\n") "f" "f.tmp" [] (some 0)).1 "f.tmp" =
      none :=
  ⟨by decide, by decide,
    ((c3_patch_atomicity (singleFS "f" "a\n") "f" "f.tmp" [] (some 0)
        (by decide)).1 "I/O error during write" (by decide)).1,
    ((c3_patch_atomicity (singleFS "f" "a\n") "f" "f.tmp" [] (some 0)
        (by decide)).1 "I/O error during write" (by decide)).2⟩

/-- Shifting every edit down by one line makes the insert scan at
cursor n behave exactly like the unshifted scan at cursor n + 1. -/
theorem takeInserts_shift (edits : List Edit) (n : Int) :
    takeInserts (edits.map shiftEdit) n =
      ((takeInserts edits (n + 1)).1, (takeInserts edits (n + 1)).2.1,
        (takeInserts edits (n + 1)).2.2.map shiftEdit) := by
  induction edits with
  | nil => simp [takeInserts]
  | cons e rest ih =>
    by_cases h : e.insert = true ∧ e.frm = n + 1
    · have h' : (shiftEdit e).insert = true ∧ (shiftEdit e).frm = n := by
        refine ⟨h.1, ?_⟩
        have := h.2
        simp only [shiftEdit]
        omega
      simp only [List.map_cons, takeInserts, if_pos h, if_pos h', ih]
      simp [shiftEdit]
    · have h' : ¬ ((shiftEdit e).insert = true ∧ (shiftEdit e).frm = n) := by
        intro hcon
        apply h
        refine ⟨hcon.1, ?_⟩
        have := hcon.2
        simp only [shiftEdit] at this
        omega
      simp only [List.map_cons, takeInserts, if_neg h, if_neg h']

/-- Shifting edits does not change the end-of-file flush: only the
contents are written. -/
theorem flushEdits_shift (edits : List Edit) :
    flushEdits (edits.map shiftEdit) = flushEdits edits := by
  induction edits with
  | nil => rfl
  | cons e rest ih =>
    simp only [List.map_cons, flushEdits, ih, shiftEdit]

/-- The streaming loop on edits shifted down by one line at cursor n
equals the loop on the original edits at cursor n + 1. -/
theorem applyLoop_shift (lines : List String) (edits : List Edit) (n : Int) :
    applyLoop lines (edits.map shiftEdit) n = applyLoop lines edits (n + 1) := by
  induction lines generalizing edits n with
  | nil => simpa [applyLoop] using flushEdits_shift edits
  | cons raw rest ih =>
    simp only [applyLoop, takeInserts_shift]
    cases hI : (takeInserts edits (n + 1)).2.2 with
    | nil =>
      simp only [List.map_nil]
      have := ih [] (n + 1)
      simp only [List.map_nil] at this
      rw [this]
    | cons e restE =>
      simp only [List.map_cons]
      by_cases hr : e.insert = false ∧ e.frm ≤ n + 1 ∧ n + 1 ≤ e.toLn
      · have hr' : (shiftEdit e).insert = false ∧ (shiftEdit e).frm ≤ n ∧
            n ≤ (shiftEdit e).toLn := by
          obtain ⟨h1, h2, h3⟩ := hr
          refine ⟨h1, ?_, ?_⟩ <;> simp only [shiftEdit] <;> omega
        rw [if_pos hr', if_pos hr]
        have hrep : (n = (shiftEdit e).frm ∧ (shiftEdit e).content ≠ "") ↔
            (n + 1 = e.frm ∧ e.content ≠ "") := by
          simp only [shiftEdit]
          constructor
          · rintro ⟨h1, h2⟩; exact ⟨by omega, h2⟩
          · rintro ⟨h1, h2⟩; exact ⟨by omega, h2⟩
        have hend : (n = (shiftEdit e).toLn) ↔ (n + 1 = e.toLn) := by
          simp only [shiftEdit]; omega
        by_cases he : n + 1 = e.toLn
        · rw [if_pos (hend.mpr he), if_pos he]
          by_cases hc : n + 1 = e.frm ∧ e.content ≠ ""
          · rw [if_pos (hrep.mpr hc), if_pos hc, ih restE (n + 1)]
            simp [shiftEdit]
          · rw [if_neg (fun hx => hc (hrep.mp hx)), if_neg hc, ih restE (n + 1)]
        · rw [if_neg (fun hx => he (hend.mp hx)), if_neg he]
          by_cases hc : n + 1 = e.frm ∧ e.content ≠ ""
          · rw [if_pos (hrep.mpr hc), if_pos hc]
            have := ih (e :: restE) (n + 1)
            simp only [List.map_cons] at this
            rw [this]
            simp [shiftEdit]
          · rw [if_neg (fun hx => hc (hrep.mp hx)), if_neg hc]
            have := ih (e :: restE) (n + 1)
            simp only [List.map_cons] at this
            rw [this]
      · have hr' : ¬ ((shiftEdit e).insert = false ∧ (shiftEdit e).frm ≤ n ∧
            n ≤ (shiftEdit e).toLn) := by
          intro hcon
          apply hr
          obtain ⟨h1, h2, h3⟩ := hcon
          simp only [shiftEdit] at h2 h3
          exact ⟨h1, by omega, by omega⟩
        rw [if_neg hr', if_neg hr]
        have := ih (e :: restE) (n + 1)
        simp only [List.map_cons] at this
        rw [this]

/-- C7 amended: the two patch appliers are not interchangeable on the
same edit list (see the counterexample); instead, apply_patch_impl
(rfc_text_editor.py) equals apply_patch (file_ops.py) run on the
newline-canonicalised edits with from and to each decreased by one,
reflecting its 1-based line cursor against apply_patch's 0-based one;
output file and total line count then agree exactly. -/
theorem c7_equivalence_amended (lines : List String) (edits : List Edit) :
    applyPatchImplCore lines edits =
      applyPatchCore lines ((edits.map canonEdit).map shiftEdit) := by
  unfold applyPatchImplCore applyPatchCore
  rw [applyLoop_shift]
  norm_num

/-- concatTexts distributes over list append. -/
theorem concatTexts_append (l1 l2 : List Piece) :
    concatTexts (l1 ++ l2) = concatTexts l1 ++ concatTexts l2 := by
  induction l1 with
  | nil => rfl
  | cons p rest ih =>
    simp only [List.cons_append, concatTexts, String.append_assoc]
    exact congrArg (fun t => pieceText p ++ t) ih

/-- The insert scan equals its trace: same text, a count that sums
pieceCount over the written blocks, and the same remaining edits. -/
theorem takeInserts_eq_trace (edits : List Edit) (n : Int) :
    takeInserts edits n =
      (concatTexts (takeInsertsTrace edits n).1,
        ((takeInsertsTrace edits n).1.map pieceCount).sum,
        (takeInsertsTrace edits n).2) := by
  induction edits with
  | nil => rfl
  | cons e rest ih =>
    by_cases h : e.insert = true ∧ e.frm = n
    · simp only [takeInserts, takeInsertsTrace, if_pos h, ih]
      by_cases hc : e.content ≠ ""
      · simp [hc, concatTexts_append, concatTexts, pieceCount, pieceText]
      · simp [hc, concatTexts]
    · simp only [takeInserts, takeInsertsTrace, if_neg h]
      simp [concatTexts]

/-- The end-of-file flush equals its trace. -/
theorem flushEdits_eq_trace (edits : List Edit) :
    flushEdits edits =
      (concatTexts (flushTrace edits),
        ((flushTrace edits).map pieceCount).sum) := by
  induction edits with
  | nil => rfl
  | cons e rest ih =>
    simp only [flushEdits, flushTrace, ih]
    by_cases hc : e.content ≠ ""
    · simp [hc, concatTexts_append, concatTexts, pieceCount, pieceText]
    · simp [hc, concatTexts]

/-- The streaming loop equals its trace: the output file is the
concatenation of the written pieces and total_written is the sum of
their pieceCounts. -/
theorem applyLoop_eq_trace (lines : List String) (edits : List Edit) (n : Int) :
    applyLoop lines edits n =
      (concatTexts (applyLoopTrace lines edits n),
        ((applyLoopTrace lines edits n).map pieceCount).sum) := by
  induction lines generalizing edits n with
  | nil => simpa [applyLoop, applyLoopTrace] using flushEdits_eq_trace edits
  | cons raw rest ih =>
    simp only [applyLoop, applyLoopTrace, takeInserts_eq_trace]
    cases hI : (takeInsertsTrace edits n).2 with
    | nil =>
      simp [ih, concatTexts_append, concatTexts, pieceCount, pieceText,
        String.append_assoc, Nat.add_assoc]
    | cons e restE =>
      by_cases hr : e.insert = false ∧ e.frm ≤ n ∧ n ≤ e.toLn
      · simp only [if_pos hr]
        by_cases hc : n = e.frm ∧ e.content ≠ ""
        · simp [hc, ih, concatTexts_append, concatTexts, pieceCount, pieceText,
            String.append_assoc, Nat.add_assoc]
        · simp [hc, ih, concatTexts_append, concatTexts, pieceText,
            String.append_assoc, Nat.add_assoc]
      · simp only [if_neg hr]
        simp [ih, concatTexts_append, concatTexts, pieceCount, pieceText,
          String.append_assoc, Nat.add_assoc]

/-- Every block in the insert-scan trace has non-empty content. -/
theorem takeInsertsTrace_block_ne (edits : List Edit) (n : Int) (c : String)
    (h : Piece.block c ∈ (takeInsertsTrace edits n).1) : c ≠ "" := by
  induction edits with
  | nil => simp [takeInsertsTrace] at h
  | cons e rest ih =>
    by_cases hcond : e.insert = true ∧ e.frm = n
    · simp only [takeInsertsTrace, if_pos hcond] at h
      by_cases hc : e.content ≠ ""
      · simp [hc] at h
        rcases h with h | h
        · intro hce
          exact hc (h ▸ hce)
        · exact ih h
      · simp [hc] at h
        exact ih h
    · simp [takeInsertsTrace, if_neg hcond] at h

/-- Every block in the flush trace has non-empty content. -/
theorem flushTrace_block_ne (edits : List Edit) (c : String)
    (h : Piece.block c ∈ flushTrace edits) : c ≠ "" := by
  induction edits with
  | nil => simp [flushTrace] at h
  | cons e rest ih =>
    simp only [flushTrace] at h
    by_cases hc : e.content ≠ ""
    · simp [hc] at h
      rcases h with h | h
      · intro hce
        exact hc (h ▸ hce)
      · exact ih h
    · simp [hc] at h
      exact ih h

/-- Every block the streaming loop writes has non-empty content: an
edit whose content is the empty string writes nothing at all. -/
theorem applyLoopTrace_block_ne (lines : List String) (edits : List Edit)
    (n : Int) (c : String) (h : Piece.block c ∈ applyLoopTrace lines edits n) :
    c ≠ "" := by
  induction lines generalizing edits n with
  | nil => exact flushTrace_block_ne edits c h
  | cons raw rest ih =>
    simp only [applyLoopTrace] at h
    split at h
    · rename_i e restE heq
      split at h
      · rcases List.mem_append.mp h with h2 | h2
        · rcases List.mem_append.mp h2 with h3 | h3
          · exact takeInsertsTrace_block_ne edits n c h3
          · by_cases hc : n = e.frm ∧ e.content ≠ ""
            · rw [if_pos hc] at h3
              simp at h3
              intro hce
              exact hc.2 (h3 ▸ hce)
            · rw [if_neg hc] at h3
              simp at h3
        · exact ih _ _ h2
      · rcases List.mem_append.mp h with h2 | h2
        · rcases List.mem_append.mp h2 with h3 | h3
          · exact takeInsertsTrace_block_ne edits n c h3
          · simp at h3
        · exact ih _ _ h2
    · rcases List.mem_append.mp h with h2 | h2
      · rcases List.mem_append.mp h2 with h3 | h3
        · exact takeInsertsTrace_block_ne edits n c h3
        · simp at h3
      · exact ih _ _ h2

/-- C9: the total line count of the patch applier is the sum over the
written pieces, where a content block counts
content.count newline + (1 if non-empty and not newline-terminated)
and a copied original line counts 1; blocks are only written for
non-empty contents, the empty content counts 0 lines, and write_file
computes its total by the same formula. -/
theorem c9_line_counting :
    (∀ (lines : List String) (edits : List Edit),
      (applyPatchCore lines edits).2 =
        ((applyLoopTrace lines edits 0).map pieceCount).sum) ∧
    (∀ c, pieceCount (Piece.block c) =
      pyCountChar c '\n' +
        (if c ≠ "" ∧ pyEndsWithChar c '\n' = false then 1 else 0)) ∧
    (∀ raw, pieceCount (Piece.line raw) = 1) ∧
    (∀ (lines : List String) (edits : List Edit) (c : String),
      Piece.block c ∈ applyLoopTrace lines edits 0 → c ≠ "") ∧
    countContentLines "" = 0 ∧
    (∀ (fs : FS) (path S : String),
      (write_file fs path S).2.total_lines = countContentLines S) := by
  refine ⟨?_, ?_, ?_, ?_, ?_, ?_⟩
  · intro lines edits
    unfold applyPatchCore
    rw [applyLoop_eq_trace]
  · intro c
    rfl
  · intro raw
    rfl
  · intro lines edits c h
    exact applyLoopTrace_block_ne lines edits 0 c h
  · decide
  · intro fs path S
    rfl

/-- Closed instance of c9_line_counting: on a one-line file with one
non-empty insert, the applier's count is the piece sum, and the
block "X\n" found in the trace is non-empty. -/
theorem c9_line_counting_witness :
    Piece.block "X\n" ∈
      applyLoopTrace ["a\n"] [⟨0, -1, "X\n", true⟩] 0 ∧
    ("X\n" : String) ≠ "" ∧
    (applyPatchCore ["a\n"] [⟨0, -1, "X\n", true⟩]).2 =
      ((applyLoopTrace ["a\n"] [⟨0, -1, "X\n", true⟩] 0).map pieceCount).sum :=
  ⟨by decide,
    c9_line_counting.2.2.2.1 ["a\n"] [⟨0, -1, "X\n", true⟩] "X\n" (by decide),
    c9_line_counting.1 ["a\n"] [⟨0, -1, "X\n", true⟩]⟩

/-- Appending a newline makes a string newline-terminated. -/
theorem pyEndsWithChar_append_newline (s : String) :
    pyEndsWithChar (s ++ "\n") '\n' = true := by
  unfold pyEndsWithChar
  have hl : (s ++ "\n").toList = s.toList ++ ['\n'] := String.data_append s "\n"
  rw [hl]
  rw [List.getLast?_append_of_ne_nil _ (by simp)]
  rfl

/-- C6 amended: only the remote applier canonicalises newlines.
apply_patch_impl (rfc_text_editor.py) appends exactly one newline to
every edit content that is non-empty and not newline-terminated,
before any write, leaving other edits untouched, so every content it
writes is empty or newline-terminated; apply_patch (file_ops.py)
writes contents verbatim, so a non-newline-terminated insert fuses
with the following original line. -/
theorem c6_newline_canon_amended :
    (∀ e : Edit,
      (e.content ≠ "" ∧ pyEndsWithChar e.content '\n' = false →
        canonEdit e = { e with content := e.content ++ "\n" }) ∧
      (e.content = "" ∨ pyEndsWithChar e.content '\n' = true →
        canonEdit e = e)) ∧
    (∀ e : Edit, (canonEdit e).content = "" ∨
      pyEndsWithChar (canonEdit e).content '\n' = true) ∧
    (∀ (lines : List String) (edits : List Edit),
      applyPatchImplCore lines edits =
        applyLoop lines (edits.map canonEdit) 1) ∧
    (applyPatchCore ["a\n", "b\n"]
        (validate_edits [⟨some 0, none, some "X"⟩]).1).1 = "Xa\nb\n" := by
  refine ⟨?_, ?_, ?_, ?_⟩
  · intro e
    constructor
    · intro h
      unfold canonEdit
      rw [if_pos h]
    · intro h
      unfold canonEdit
      rw [if_neg]
      rintro ⟨h1, h2⟩
      rcases h with h | h
      · exact h1 h
      · rw [h] at h2
        cases h2
  · intro e
    unfold canonEdit
    by_cases h : e.content ≠ "" ∧ pyEndsWithChar e.content '\n' = false
    · rw [if_pos h]
      exact Or.inr (pyEndsWithChar_append_newline e.content)
    · rw [if_neg h]
      push_neg at h
      by_cases hc : e.content = ""
      · exact Or.inl hc
      · exact Or.inr (by simpa using h hc)
  · intro lines edits
    rfl
  · decide

/-- Closed instance of c6_newline_canon_amended: canonicalising the
insert content "X" appends exactly one newline, giving "X\n". -/
theorem c6_newline_canon_witness :
    (("X" : String) ≠ "" ∧ pyEndsWithChar "X" '\n' = false) ∧
    canonEdit ⟨0, -1, "X", true⟩ = ⟨0, -1, "X\n", true⟩ :=
  ⟨⟨by decide, by decide⟩, by
    have h := (c6_newline_canon_amended.1 ⟨0, -1, "X", true⟩).1
      ⟨by decide, by decide⟩
    simpa using h⟩

/-- numberLines preserves length. -/
theorem numberLines_length (l : List String) (n : Int) :
    (numberLines l n).length = l.length := by
  induction l generalizing n with
  | nil => rfl
  | cons raw rest ih => simp [numberLines, ih]

/-- A Python slice with ordered in-range bounds is drop-then-take. -/
theorem pySlice_eq {α : Type} (l : List α) (a b : Int) (h0 : 0 ≤ a)
    (hab : a ≤ b) (hb : b ≤ l.length) :
    pySlice l a b = (l.drop a.toNat).take ((b - a).toNat) := by
  have h1 : min a.toNat l.length = a.toNat := by omega
  have h2 : min b.toNat l.length = b.toNat := by omega
  have h3 : b.toNat - a.toNat = (b - a).toNat := by omega
  simp only [pySlice, pySliceIdx]
  rw [if_neg (by omega), if_neg (by omega), h1, h2, h3]

/-- When every selected line is within the per-line budget and the
whole selection is within the total budget, the emission loop crops
nothing, trims nothing and emits every selected line numbered. -/
theorem readLoop_no_trim (ora : TokenOracle) (mlt mtt : Nat) :
    ∀ (sel : List String) (n : Int) (run : Nat),
      (∀ raw ∈ sel, ora.countTokens (stripLine raw) ≤ mlt) →
      run + (sel.map (fun raw => ora.countTokens (stripLine raw))).sum ≤ mtt →
      readLoop ora mlt mtt sel n run = (numberLines sel n, [], false) := by
  intro sel
  induction sel with
  | nil =>
    intro n run _ _
    rfl
  | cons raw rest ih =>
    intro n run hall hsum
    have htok : ora.countTokens (stripLine raw) ≤ mlt := hall raw (by simp)
    have hcrop : ¬ ora.countTokens (stripLine raw) > mlt := by omega
    have hrest : (run + ora.countTokens (stripLine raw)) +
        (rest.map (fun raw => ora.countTokens (stripLine raw))).sum ≤ mtt := by
      simp only [List.map_cons, List.sum_cons] at hsum
      omega
    have hbreak : ¬ run + ora.countTokens (stripLine raw) > mtt := by omega
    simp only [readLoop, if_neg hcrop, if_neg hbreak]
    rw [ih (n + 1) (run + ora.countTokens (stripLine raw))
      (fun r hr => hall r (by simp [hr])) hrest]
    simp [numberLines]

/-- Every line the emission loop outputs is prefixed with its display
number: the i-th emitted line starts with line_from + i. -/
theorem readLoop_numbers (ora : TokenOracle) (mlt mtt : Nat) :
    ∀ (sel : List String) (n : Int) (run : Nat) (i : Nat),
      i < (readLoop ora mlt mtt sel n run).1.length →
      ∃ s, (readLoop ora mlt mtt sel n run).1[i]? =
        some (toString (n + i) ++ " " ++ s) := by
  intro sel
  induction sel with
  | nil =>
    intro n run i h
    simp [readLoop] at h
  | cons raw rest ih =>
    intro n run i h
    by_cases hbreak : run + (if ora.countTokens (stripLine raw) > mlt then mlt
        else ora.countTokens (stripLine raw)) > mtt
    · simp only [readLoop, if_pos hbreak] at h
      simp at h
    · simp only [readLoop, if_neg hbreak] at h ⊢
      cases i with
      | zero =>
        refine ⟨if ora.countTokens (stripLine raw) > mlt then
            pyTake (stripLine raw)
              (ora.keepChars mlt (stripLine raw).length
                (ora.countTokens (stripLine raw))) ++ "..."
          else stripLine raw, ?_⟩
        simp
      | succ j =>
        have hj : j < (readLoop ora mlt mtt rest (n + 1)
            (run + (if ora.countTokens (stripLine raw) > mlt then mlt
              else ora.countTokens (stripLine raw)))).1.length := by
          simpa using h
        obtain ⟨s, hs⟩ := ih (n + 1) _ j hj
        refine ⟨s, ?_⟩
        rw [List.getElem?_cons_succ, hs]
        have heq : n + 1 + (j : Int) = n + ((j + 1 : Nat) : Int) := by
          push_cast
          ring
        rw [heq]

/-- When trimming occurred, the assembled warning string contains the
trim warning naming actual_end verbatim. -/
theorem trimWarn_infix_buildWarnStr (crops : List Int) (n : Int) :
    (trimWarn n).data <:+: (buildWarnStr crops true n).data := by
  by_cases h : crops.isEmpty
  · have hb : buildWarnStr crops true n = "\nwarning: " ++ trimWarn n := by
      simp [buildWarnStr, h, pyJoin]
    rw [hb, String.data_append]
    exact (List.suffix_append _ _).isInfix
  · have hb : buildWarnStr crops true n =
        "\nwarning: " ++ (cropWarn crops ++ "; " ++ trimWarn n) := by
      simp [buildWarnStr, h, pyJoin]
    rw [hb, String.data_append, String.data_append, ← List.append_assoc]
    exact (List.suffix_append _ _).isInfix

/-- C2 amended: read_file's window is the 0-based half-open slice
all_lines[line_from:line_to].  For 0 <= line_from <= line_to <=
total_lines (line_to positive; line_from below 0 is clamped up to 0,
not 1), with budgets large enough that nothing is cropped or
trimmed, exactly line_to - line_from lines are emitted, namely
original 0-based lines line_from .. line_to - 1, each prefixed with
its 0-based index; when token-budget trimming stops emission early,
the warning names line_from + (number of emitted lines), the display
number immediately after the last emitted line. -/
theorem c2_read_range_amended :
    (∀ (ora : TokenOracle) (fs : FS) (path content : String) (lf lt : Int)
        (mlt dlc mtt : Nat),
      fs path = some content → isBinaryStr content = false →
      0 ≤ lf → lf ≤ lt → 0 < lt → lt ≤ (pyReadLines content).length →
      (∀ raw ∈ ((pyReadLines content).drop lf.toNat).take ((lt - lf).toNat),
        ora.countTokens (stripLine raw) ≤ mlt) →
      ((((pyReadLines content).drop lf.toNat).take ((lt - lf).toNat)).map
        (fun raw => ora.countTokens (stripLine raw))).sum ≤ mtt →
      (read_file ora fs path lf (some lt) mlt dlc mtt).content =
        pyJoin "\n"
          (numberLines
            (((pyReadLines content).drop lf.toNat).take ((lt - lf).toNat)) lf) ∧
      (read_file ora fs path lf (some lt) mlt dlc mtt).warnings = "" ∧
      (read_file ora fs path lf (some lt) mlt dlc mtt).error = "" ∧
      (numberLines
          (((pyReadLines content).drop lf.toNat).take ((lt - lf).toNat))
          lf).length = (lt - lf).toNat) ∧
    (∀ (ora : TokenOracle) (fs : FS) (path content : String) (lf : Int)
        (lto : Option Int) (mlt dlc mtt : Nat),
      fs path = some content → isBinaryStr content = false →
      (readLoop ora mlt mtt
          (readSelection (pyReadLines content) lf lto dlc).2
          (readSelection (pyReadLines content) lf lto dlc).1 0).2.2 = true →
      (trimWarn ((readSelection (pyReadLines content) lf lto dlc).1 +
          (readLoop ora mlt mtt
            (readSelection (pyReadLines content) lf lto dlc).2
            (readSelection (pyReadLines content) lf lto dlc).1 0).1.length)).data <:+:
        (read_file ora fs path lf lto mlt dlc mtt).warnings.data ∧
      (∀ i, i < (readLoop ora mlt mtt
          (readSelection (pyReadLines content) lf lto dlc).2
          (readSelection (pyReadLines content) lf lto dlc).1 0).1.length →
        ∃ s, (readLoop ora mlt mtt
            (readSelection (pyReadLines content) lf lto dlc).2
            (readSelection (pyReadLines content) lf lto dlc).1 0).1[i]? =
          some (toString ((readSelection (pyReadLines content) lf lto dlc).1 + i)
            ++ " " ++ s))) := by
  constructor
  · intro ora fs path content lf lt mlt dlc mtt hfs hbin h0 hlf hpos hle hall hsum
    have hsel : readSelection (pyReadLines content) lf (some lt) dlc =
        (lf, ((pyReadLines content).drop lf.toNat).take ((lt - lf).toNat)) := by
      have hmax : max lf 0 = lf := by omega
      have hmin : min lt ((pyReadLines content).length : Int) = lt := by omega
      simp only [readSelection, hmax, if_neg (by omega : ¬ lt = 0), hmin]
      rw [pySlice_eq _ _ _ h0 hlf hle]
    have hloop := readLoop_no_trim ora mlt mtt
      (((pyReadLines content).drop lf.toNat).take ((lt - lf).toNat)) lf 0
      hall (by simpa using hsum)
    simp only [read_file, hfs, hbin, Bool.false_eq_true, if_false, hsel, hloop]
    refine ⟨?_, ?_, ?_, ?_⟩
    · trivial
    · simp [buildWarnStr]
    · trivial
    · rw [numberLines_length]
      simp only [List.length_take, List.length_drop]
      omega
  · intro ora fs path content lf lto mlt dlc mtt hfs hbin htrim
    constructor
    · have hw : (read_file ora fs path lf lto mlt dlc mtt).warnings =
          buildWarnStr
            (readLoop ora mlt mtt
              (readSelection (pyReadLines content) lf lto dlc).2
              (readSelection (pyReadLines content) lf lto dlc).1 0).2.1
            (readLoop ora mlt mtt
              (readSelection (pyReadLines content) lf lto dlc).2
              (readSelection (pyReadLines content) lf lto dlc).1 0).2.2
            ((readSelection (pyReadLines content) lf lto dlc).1 +
              (readLoop ora mlt mtt
                (readSelection (pyReadLines content) lf lto dlc).2
                (readSelection (pyReadLines content) lf lto dlc).1 0).1.length) := by
        simp only [read_file, hfs, hbin, Bool.false_eq_true, if_false]
      rw [hw, htrim]
      exact trimWarn_infix_buildWarnStr _ _
    · intro i hi
      exact readLoop_numbers ora mlt mtt _ _ 0 i hi

/-- Closed instance of c2_read_range_amended: reading lines 0..2 of a
3-line file emits exactly the first two lines numbered 0 and 1, and
in a trimmed read of a 3-line file with a 9-token budget the warning
contains the resumption number 2. -/
theorem c2_read_range_witness :
    singleFS "f" "a\nb\nc\n" "f" = some "a\nb\nc\n" ∧
    isBinaryStr "a\nb\nc\n" = false ∧
    (read_file lenOracle (singleFS "f" "a\nb\nc\n") "f" 0 (some 2) 500 100
        4000).content =
      pyJoin "\n"
        (numberLines
          (((pyReadLines "a\nb\nc\n").drop (0 : Int).toNat).take
            (((2 : Int) - 0).toNat)) 0) ∧
    (readLoop lenOracle 500 9
        (readSelection (pyReadLines "aaaa\nbbbb\ncccc\n") 0 (some 3) 100).2
        (readSelection (pyReadLines "aaaa\nbbbb\ncccc\n") 0 (some 3) 100).1
        0).2.2 = true ∧
    (trimWarn ((readSelection (pyReadLines "aaaa\nbbbb\ncccc\n") 0 (some 3) 100).1 +
        (readLoop lenOracle 500 9
          (readSelection (pyReadLines "aaaa\nbbbb\ncccc\n") 0 (some 3) 100).2
          (readSelection (pyReadLines "aaaa\nbbbb\ncccc\n") 0 (some 3) 100).1
          0).1.length)).data <:+:
      (read_file lenOracle (singleFS "g" "aaaa\nbbbb\ncccc\n") "g" 0 (some 3)
        500 100 9).warnings.data :=
  ⟨rfl, by decide,
    (c2_read_range_amended.1 lenOracle (singleFS "f" "a\nb\nc\n") "f"
      "a\nb\nc\n" 0 2 500 100 4000 rfl (by decide) (by decide) (by decide)
      (by decide) (by decide) (by decide) (by decide)).1,
    by decide,
    (c2_read_range_amended.2 lenOracle (singleFS "g" "aaaa\nbbbb\ncccc\n") "g"
      "aaaa\nbbbb\ncccc\n" 0 (some 3) 500 100 9 rfl (by decide)
      (by decide)).1⟩

/-- Length of the readlines splitter: one line per newline, plus one
for a trailing fragment (an empty input with an empty accumulator
yields no line). -/
theorem pyReadLinesAux_length (cs : List Char) :
    ∀ acc, (pyReadLinesAux cs acc).length =
      cs.count '\n' +
        (if cs.getLast? = some '\n' ∨ (cs = [] ∧ acc = []) then 0 else 1) := by
  induction cs with
  | nil =>
    intro acc
    by_cases h : acc.isEmpty
    · simp [pyReadLinesAux, h, List.isEmpty_iff.mp h]
    · have hne : ¬ acc = [] := fun hh => h (by simp [hh])
      simp [pyReadLinesAux, h, hne]
  | cons c rest ih =>
    intro acc
    by_cases hc : c = '\n'
    · subst hc
      rw [show pyReadLinesAux ('\n' :: rest) acc =
          String.mk (acc.reverse ++ ['\n']) :: pyReadLinesAux rest [] from by
        simp [pyReadLinesAux]]
      rw [List.length_cons, ih []]
      rcases rest with _ | ⟨r, rs⟩
      · simp
      · simp only [List.getLast?_cons_cons, List.count_cons]
        by_cases hl : (r :: rs).getLast? = some '\n' <;> simp [hl]
    · rw [show pyReadLinesAux (c :: rest) acc = pyReadLinesAux rest (c :: acc) from by
        simp [pyReadLinesAux, hc]]
      rw [ih (c :: acc)]
      rcases rest with _ | ⟨r, rs⟩
      · simp [hc, List.count_cons]
      · simp only [List.getLast?_cons_cons, List.count_cons]
        by_cases hl : (r :: rs).getLast? = some '\n' <;> simp [hl, hc]

/-- The number of lines readlines produces equals the writer's
total-line formula: newline count plus one for a non-empty,
non-newline-terminated tail. -/
theorem pyReadLines_length (S : String) :
    (pyReadLines S).length =
      pyCountChar S '\n' +
        (if S ≠ "" ∧ pyEndsWithChar S '\n' = false then 1 else 0) := by
  unfold pyReadLines pyCountChar pyEndsWithChar
  rw [pyReadLinesAux_length S.toList []]
  by_cases hS : S.toList = []
  · have hS2 : S = "" := by
      cases S with
      | mk d => simp only [String.toList] at hS
                simp [hS]
    simp [hS, hS2]
  · have hS2 : ¬ S = "" := by
      intro hh
      subst hh
      exact hS rfl
    simp only [String.toList] at hS
    by_cases hl : S.data.getLast? = some '\n'
    · simp [hl, hS, hS2]
    · simp [hl, hS, hS2]

/-- dropWhile is the identity when the predicate never holds. -/
theorem dropWhile_eq_self_of (l : List Char) (p : Char → Bool)
    (h : ∀ x ∈ l, p x = false) : l.dropWhile p = l := by
  cases l with
  | nil => rfl
  | cons x t => simp [List.dropWhile, h x (by simp)]

/-- Stripping characters only removes characters. -/
theorem pyRstrip_subset (s : String) (cst : List Char) :
    ∀ x ∈ (pyRstrip s cst).toList, x ∈ s.toList := by
  intro x hx
  have hx2 : x ∈ (s.toList.reverse.dropWhile (fun c => cst.contains c)).reverse := hx
  rw [List.mem_reverse] at hx2
  have hsub := List.dropWhile_sublist (l := s.toList.reverse)
    (p := fun c => cst.contains c)
  exact List.mem_reverse.mp (hsub.mem hx2)

/-- Stripping a character absent from the string is the identity. -/
theorem pyRstrip_eq_self (s : String) (c : Char) (h : c ∉ s.toList) :
    pyRstrip s [c] = s := by
  unfold pyRstrip
  rw [dropWhile_eq_self_of]
  · rw [List.reverse_reverse]
    rfl
  · intro x hx
    have hxc : ¬ x = c := by
      intro hh
      exact h (hh ▸ List.mem_reverse.mp hx)
    simp [hxc]

/-- Without carriage returns, the reader's per-line strip is exactly
removal of the trailing newline. -/
theorem stripLine_no_cr (raw : String) (h : '\r' ∉ raw.toList) :
    stripLine raw = pyRstrip raw ['\n'] := by
  unfold stripLine
  apply pyRstrip_eq_self
  intro hmem
  exact h (pyRstrip_subset raw ['\n'] '\r' hmem)

/-- Every character of a readlines line occurs in the input (or the
accumulator). -/
theorem pyReadLinesAux_chars (cs : List Char) :
    ∀ acc raw, raw ∈ pyReadLinesAux cs acc →
      ∀ ch ∈ raw.toList, ch ∈ cs ∨ ch ∈ acc := by
  induction cs with
  | nil =>
    intro acc raw hraw ch hch
    by_cases h : acc.isEmpty
    · simp [pyReadLinesAux, h] at hraw
    · rw [show pyReadLinesAux [] acc = [String.mk acc.reverse] from by
        simp [pyReadLinesAux, h]] at hraw
      simp only [List.mem_singleton] at hraw
      subst hraw
      right
      exact List.mem_reverse.mp hch
  | cons c rest ih =>
    intro acc raw hraw ch hch
    by_cases hc : c = '\n'
    · subst hc
      rw [show pyReadLinesAux ('\n' :: rest) acc =
          String.mk (acc.reverse ++ ['\n']) :: pyReadLinesAux rest [] from by
        simp [pyReadLinesAux]] at hraw
      rcases List.mem_cons.mp hraw with hraw | hraw
      · subst hraw
        rcases List.mem_append.mp hch with hm | hm
        · exact Or.inr (List.mem_reverse.mp hm)
        · simp at hm
          subst hm
          exact Or.inl (by simp)
      · rcases ih [] raw hraw ch hch with hm | hm
        · exact Or.inl (by simp [hm])
        · simp at hm
    · rw [show pyReadLinesAux (c :: rest) acc = pyReadLinesAux rest (c :: acc) from by
        simp [pyReadLinesAux, hc]] at hraw
      rcases ih (c :: acc) raw hraw ch hch with hm | hm
      · exact Or.inl (by simp [hm])
      · rcases List.mem_cons.mp hm with hm2 | hm2
        · exact Or.inl (by simp [hm2])
        · exact Or.inr hm2

/-- Every character of a readlines line occurs in the input string. -/
theorem pyReadLines_chars (S : String) (raw : String)
    (h : raw ∈ pyReadLines S) : ∀ ch ∈ raw.toList, ch ∈ S.toList := by
  intro ch hch
  rcases pyReadLinesAux_chars S.toList [] raw h ch hch with hm | hm
  · exact hm
  · simp at hm

/-- A slice of the empty list is empty. -/
theorem pySlice_nil {α : Type} (a b : Int) : pySlice ([] : List α) a b = [] := by
  simp [pySlice]

/-- C8 amended: the write/read round trip holds at line_from = 0, not
line_from = 1: write_file(path, S) reports total_lines equal to the
number of readlines lines of S, and read_file(path, 0, total_lines)
with budgets large enough that nothing is cropped or trimmed emits
every line of S in order, numbered from 0, the text after each
number prefix being the line of S without its trailing newline
(line_from = 1, as the claim reads, skips the first line, since
read_file's window is the 0-based slice all_lines[line_from:line_to]). -/
theorem c8_roundtrip_amended :
    ∀ (ora : TokenOracle) (fs : FS) (path S : String) (mlt dlc mtt : Nat),
      isBinaryStr S = false →
      '\r' ∉ S.toList →
      (∀ raw ∈ pyReadLines S, ora.countTokens (stripLine raw) ≤ mlt) →
      ((pyReadLines S).map (fun raw => ora.countTokens (stripLine raw))).sum ≤ mtt →
      (read_file ora (write_file fs path S).1 path 0
        (some ((write_file fs path S).2.total_lines : Int)) mlt dlc mtt).error
        = "" ∧
      (read_file ora (write_file fs path S).1 path 0
        (some ((write_file fs path S).2.total_lines : Int)) mlt dlc mtt).content
        = pyJoin "\n" (numberLines (pyReadLines S) 0) ∧
      (numberLines (pyReadLines S) 0).length =
        (write_file fs path S).2.total_lines ∧
      (∀ raw ∈ pyReadLines S, stripLine raw = pyRstrip raw ['\n']) := by
  intro ora fs path S mlt dlc mtt hbin hcr hall hsum
  have hw1 : (write_file fs path S).1 path = some S := by
    simp [write_file, fsSet]
  have hN : (write_file fs path S).2.total_lines = (pyReadLines S).length := by
    rw [pyReadLines_length]
    rfl
  have hstrip : ∀ raw ∈ pyReadLines S, stripLine raw = pyRstrip raw ['\n'] := by
    intro raw hraw
    apply stripLine_no_cr
    intro hmem
    exact hcr (pyReadLines_chars S raw hraw '\r' hmem)
  rw [hN]
  by_cases h0 : (pyReadLines S).length = 0
  · have hnil : pyReadLines S = [] := List.length_eq_zero.mp h0
    have hsel : readSelection (pyReadLines S) 0
        (some ((pyReadLines S).length : Int)) dlc = (0, []) := by
      rw [hnil]
      simp [readSelection, pySlice_nil]
    simp only [read_file, hw1, hbin, Bool.false_eq_true, if_false, hsel]
    refine ⟨trivial, ?_, ?_, hstrip⟩
    · first
      | rfl
      | (rw [hnil]; rfl)
    · first
      | rfl
      | (rw [hnil]; rfl)
  · have hsel : readSelection (pyReadLines S) 0
        (some ((pyReadLines S).length : Int)) dlc = (0, pyReadLines S) := by
      have hne : ¬ ((pyReadLines S).length : Int) = 0 := by
        omega
      simp only [readSelection, max_self, if_neg hne, min_self]
      rw [pySlice_eq _ _ _ (by omega) (by omega) (by omega)]
      simp
  -- proof continues below
    have hloop := readLoop_no_trim ora mlt mtt (pyReadLines S) 0 0
      hall (by simpa using hsum)
    simp only [read_file, hw1, hbin, Bool.false_eq_true, if_false, hsel, hloop]
    refine ⟨trivial, trivial, ?_, hstrip⟩
    rw [numberLines_length]

/-- Closed instance of c8_roundtrip_amended: writing "a\nb\n" and
reading back from line 0 with the reported total reproduces both
lines, numbered 0 and 1. -/
theorem c8_roundtrip_witness :
    isBinaryStr "a\nb\n" = false ∧
    ('\r' ∉ ("a\nb\n" : String).toList) ∧
    (read_file lenOracle (write_file (fun _ => none) "f" "a\nb\n").1 "f" 0
        (some ((write_file (fun _ => none) "f" "a\nb\n").2.total_lines : Int))
        500 100 4000).content =
      pyJoin "\n" (numberLines (pyReadLines "a\nb\n") 0) :=
  ⟨by decide, by decide,
    (c8_roundtrip_amended lenOracle (fun _ => none) "f" "a\nb\n" 500 100 4000
      (by decide) (by decide) (by decide) (by decide)).2.1⟩

/-- The overlap message is never the empty string. -/
theorem overlapMsg_ne_empty (p c : Edit) : overlapMsg p c ≠ "" := by
  intro h
  have h2 := congrArg String.length h
  simp only [overlapMsg, String.length_append] at h2
  have h3 : 0 < ("overlapping edits: edit at " : String).length := by decide
  have h4 : ("" : String).length = 0 := by decide
  omega

/-- A reported overlap error is never the empty string. -/
theorem checkOverlaps_some_ne_empty :
    ∀ (l : List Edit) (msg : String), checkOverlaps l = some msg → msg ≠ "" := by
  intro l
  induction l with
  | nil =>
    intro msg h
    simp [checkOverlaps] at h
  | cons p tail ih =>
    intro msg h
    cases tail with
    | nil => simp [checkOverlaps] at h
    | cons c rest =>
      unfold checkOverlaps at h
      split_ifs at h with h1 h2
      · exact ih msg h
      · injection h with hh
        exact hh ▸ overlapMsg_ne_empty p c
      · exact ih msg h

/-- The sort key bounds from: an earlier sorted edit starts at or
before a later one. -/
theorem editLe_frm_le {a b : Edit} (h : editLe a b) : a.frm ≤ b.frm := by
  rcases h with h | ⟨h, _⟩
  · omega
  · omega

/-- The overlap scan of a list headed by any edit reports an error
whenever the scan of the tail does. -/
theorem checkOverlaps_cons_isSome (a : Edit) (tail : List Edit)
    (h : (checkOverlaps tail).isSome) :
    (checkOverlaps (a :: tail)).isSome := by
  cases tail with
  | nil => simp [checkOverlaps] at h
  | cons c rest =>
    unfold checkOverlaps
    split_ifs with h1 h2
    · exact h
    · simp
    · exact h

/-- If a sorted edit list contains a non-insert edit followed
(anywhere later) by an edit starting at or before its to, the
adjacent-pair scan reports an overlap. -/
theorem checkOverlaps_isSome_of_violation :
    ∀ (l : List Edit), l.Sorted editLe →
      ∀ (i j : Nat) (hi : i < l.length) (hj : j < l.length), i < j →
        (l.get ⟨i, hi⟩).insert = false →
        (l.get ⟨j, hj⟩).frm ≤ (l.get ⟨i, hi⟩).toLn →
        (checkOverlaps l).isSome := by
  intro l
  induction l with
  | nil =>
    intro _ i j hi
    simp at hi
  | cons a tail ih =>
    intro hsort i j hi hj hij hins hle
    cases i with
    | zero =>
      have hins2 : a.insert = false := hins
      cases j with
      | zero => omega
      | succ j2 =>
        cases tail with
        | nil => simp at hj
        | cons c rest =>
          have hj2 : j2 < (c :: rest).length := by simpa using hj
          have hcle : c.frm ≤ a.toLn := by
            rcases Nat.eq_zero_or_pos j2 with h0 | h0
            · subst h0
              exact hle
            · have hs2 : (c :: rest).Sorted editLe := (List.sorted_cons.mp hsort).2
              have hrel := List.Sorted.rel_get_of_lt hs2
                (a := ⟨0, by simp⟩) (b := ⟨j2, hj2⟩) (by simpa using h0)
              have h1 := editLe_frm_le hrel
              have h2 : ((c :: rest).get ⟨0, by simp⟩) = c := rfl
              rw [h2] at h1
              have h3 : ((c :: rest).get ⟨j2, hj2⟩).frm ≤ a.toLn := hle
              omega
          unfold checkOverlaps
          rw [if_neg (by simp [hins2]), if_pos hcle]
          simp
    | succ i2 =>
      cases j with
      | zero => omega
      | succ j2 =>
        have htail : (checkOverlaps tail).isSome := by
          apply ih (List.sorted_cons.mp hsort).2 i2 j2 (by simpa using hi)
            (by simpa using hj) (by omega)
          · exact hins
          · exact hle
        exact checkOverlaps_cons_isSome a tail htail

/-- The scan accepts any list of inserts. -/
theorem checkOverlaps_all_insert :
    ∀ (l : List Edit), (∀ e ∈ l, e.insert = true) → checkOverlaps l = none := by
  intro l
  induction l with
  | nil =>
    intro _
    rfl
  | cons p tail ih =>
    intro h
    cases tail with
    | nil => rfl
    | cons c rest =>
      unfold checkOverlaps
      rw [if_pos (h p (by simp))]
      exact ih fun e he => h e (by simp [he])

/-- A value counted at least twice occurs at two distinct positions. -/
theorem exists_get_pair_of_two_le_count :
    ∀ (l : List Edit) (a : Edit), 2 ≤ l.count a →
      ∃ (i j : Nat) (hi : i < l.length) (hj : j < l.length),
        i < j ∧ l.get ⟨i, hi⟩ = a ∧ l.get ⟨j, hj⟩ = a := by
  intro l
  induction l with
  | nil =>
    intro a h
    simp at h
  | cons x t ih =>
    intro a h
    by_cases hx : x = a
    · subst hx
      have ht : 1 ≤ t.count x := by
        have hcc : (x :: t).count x = t.count x + 1 := by
          simp [List.count_cons]
        omega
      have hmem : x ∈ t := by
        rw [← List.count_pos_iff]
        omega
      obtain ⟨⟨j, hj⟩, hget⟩ := List.mem_iff_get.mp hmem
      exact ⟨0, j + 1, by simp, by simpa using hj, by omega, rfl, hget⟩
    · have ht : 2 ≤ t.count a := by
        have hcc : (x :: t).count a = t.count a := by
          simp [List.count_cons, hx]
        omega
      obtain ⟨i, j, hi, hj, hij, hgi, hgj⟩ := ih a ht
      exact ⟨i + 1, j + 1, by simpa using hi, by simpa using hj, by omega,
        hgi, hgj⟩

/-- A value at two distinct positions is counted at least twice. -/
theorem two_le_count_of_get_pair :
    ∀ (l : List Edit) (a : Edit) (i j : Nat) (hi : i < l.length)
      (hj : j < l.length), i ≠ j → l.get ⟨i, hi⟩ = a → l.get ⟨j, hj⟩ = a →
      2 ≤ l.count a := by
  intro l
  induction l with
  | nil =>
    intro a i j hi
    simp at hi
  | cons x t ih =>
    intro a i j hi hj hij hgi hgj
    cases i with
    | zero =>
      cases j with
      | zero => omega
      | succ j2 =>
        have hx : x = a := hgi
        have hmem : a ∈ t := by
          rw [List.mem_iff_get]
          exact ⟨⟨j2, by simpa using hj⟩, hgj⟩
        have hcc : (x :: t).count a = t.count a + 1 := by
          simp [List.count_cons, hx]
        have := List.count_pos_iff.mpr hmem
        omega
    | succ i2 =>
      cases j with
      | zero =>
        have hx : x = a := hgj
        have hmem : a ∈ t := by
          rw [List.mem_iff_get]
          exact ⟨⟨i2, by simpa using hi⟩, hgi⟩
        have hcc : (x :: t).count a = t.count a + 1 := by
          simp [List.count_cons, hx]
        have := List.count_pos_iff.mpr hmem
        omega
      | succ j2 =>
        have hrec := ih a i2 j2 (by simpa using hi) (by simpa using hj)
          (by omega) hgi hgj
        have hcc : t.count a ≤ (x :: t).count a := by
          rw [List.count_cons]
          split <;> omega
        omega

/-- Parse errors are never empty. -/
theorem parseOne_error_ne_empty (e : RawEdit) (msg : String)
    (h : parseOne e = Except.error msg) : msg ≠ "" := by
  simp only [parseOne] at h
  split_ifs at h with h1 h2
  · injection h with hh
    intro hc
    subst hh
    have h2 := congrArg String.length hc
    simp only [String.length_append] at h2
    have h3 : 0 < ("edit missing from: from " : String).length := by decide
    have h4 : ("" : String).length = 0 := by decide
    omega

/-- A failing parse run returns one of the per-edit errors. -/
theorem parseRawEdits_error_ne_empty :
    ∀ (edits : List RawEdit) (msg : String),
      parseRawEdits edits = Except.error msg → msg ≠ "" := by
  intro edits
  induction edits with
  | nil =>
    intro msg h
    simp [parseRawEdits] at h
  | cons e rest ih =>
    intro msg h
    unfold parseRawEdits at h
    cases h1 : parseOne e with
    | error m =>
      rw [h1] at h
      injection h with hh
      exact hh ▸ parseOne_error_ne_empty e m h1
    | ok ed =>
      rw [h1] at h
      cases h2 : parseRawEdits rest with
      | error m =>
        rw [h2] at h
        injection h with hh
        exact hh ▸ ih m h2
      | ok eds =>
        rw [h2] at h
        cases h

/-- A successful parse run parses the edits pointwise, in order. -/
theorem parseRawEdits_ok_get :
    ∀ (edits : List RawEdit) (parsed : List Edit),
      parseRawEdits edits = Except.ok parsed →
      parsed.length = edits.length ∧
      ∀ (i : Nat) (hi : i < edits.length) (hp : i < parsed.length),
        parseOne (edits.get ⟨i, hi⟩) = Except.ok (parsed.get ⟨i, hp⟩) := by
  intro edits
  induction edits with
  | nil =>
    intro parsed h
    simp [parseRawEdits] at h
    subst h
    exact ⟨rfl, fun i hi => by simp at hi⟩
  | cons e rest ih =>
    intro parsed h
    unfold parseRawEdits at h
    cases h1 : parseOne e with
    | error m =>
      rw [h1] at h
      cases h
    | ok ed =>
      rw [h1] at h
      cases h2 : parseRawEdits rest with
      | error m =>
        rw [h2] at h
        cases h
      | ok eds =>
        rw [h2] at h
        injection h with hh
        subst hh
        obtain ⟨hlen, hget⟩ := ih eds h2
        refine ⟨by simp [hlen], ?_⟩
        intro i hi hp
        cases i with
        | zero => simpa using h1
        | succ i2 =>
          exact hget i2 (by simpa using hi) (by simpa using hp)

/-- If every edit parses, the run succeeds. -/
theorem parseRawEdits_ok_of_forall :
    ∀ (edits : List RawEdit),
      (∀ e ∈ edits, ∃ x, parseOne e = Except.ok x) →
      ∃ parsed, parseRawEdits edits = Except.ok parsed := by
  intro edits
  induction edits with
  | nil =>
    intro _
    exact ⟨[], rfl⟩
  | cons e rest ih =>
    intro h
    obtain ⟨x, hx⟩ := h e (by simp)
    obtain ⟨parsed, hp⟩ := ih fun r hr => h r (by simp [hr])
    exact ⟨x :: parsed, by simp [parseRawEdits, hx, hp]⟩

/-- Every parsed edit is the parse of some input edit. -/
theorem parseRawEdits_mem :
    ∀ (edits : List RawEdit) (parsed : List Edit),
      parseRawEdits edits = Except.ok parsed →
      ∀ x ∈ parsed, ∃ e ∈ edits, parseOne e = Except.ok x := by
  intro edits
  induction edits with
  | nil =>
    intro parsed h x hx
    simp [parseRawEdits] at h
    subst h
    simp at hx
  | cons e rest ih =>
    intro parsed h x hx
    unfold parseRawEdits at h
    cases h1 : parseOne e with
    | error m =>
      rw [h1] at h
      cases h
    | ok ed =>
      rw [h1] at h
      cases h2 : parseRawEdits rest with
      | error m =>
        rw [h2] at h
        cases h
      | ok eds =>
        rw [h2] at h
        injection h with hh
        subst hh
        rcases List.mem_cons.mp hx with hx2 | hx2
        · exact ⟨e, by simp, hx2 ▸ h1⟩
        · obtain ⟨r, hr, hpr⟩ := ih eds h2 x hx2
          exact ⟨r, by simp [hr], hpr⟩

/-- C4: validate_edits rejects (with a non-empty error) every edit
list containing two non-insert edits whose inclusive ranges
intersect, at any two distinct positions and whatever else the list
contains; and it accepts (empty error) every non-empty list of pure
inserts targeting the same line. -/
theorem c4_overlap_detection :
    (∀ (edits : List RawEdit) (i j : Nat) (hi : i < edits.length)
        (hj : j < edits.length) (a b : Edit),
      i ≠ j →
      parseOne (edits.get ⟨i, hi⟩) = Except.ok a →
      parseOne (edits.get ⟨j, hj⟩) = Except.ok b →
      a.insert = false → b.insert = false →
      a.frm ≤ b.toLn → b.frm ≤ a.toLn →
      (validate_edits edits).2 ≠ "") ∧
    (∀ (edits : List RawEdit) (L : Int),
      edits ≠ [] →
      (∀ e ∈ edits, ∃ x, parseOne e = Except.ok x ∧ x.insert = true ∧
        x.frm = L) →
      (validate_edits edits).2 = "") := by
  constructor
  · intro edits i j hi hj a b hij hpa hpb hains hbins hab hba
    have hne : ¬ edits.isEmpty = true := by
      intro hh
      rw [List.isEmpty_iff] at hh
      subst hh
      simp at hi
    unfold validate_edits
    rw [if_neg hne]
    cases hp : parseRawEdits edits with
    | error msg =>
      simpa using parseRawEdits_error_ne_empty edits msg hp
    | ok parsed =>
      obtain ⟨hlen, hget⟩ := parseRawEdits_ok_get edits parsed hp
      have hpli : i < parsed.length := by omega
      have hplj : j < parsed.length := by omega
      have hga : parsed.get ⟨i, hpli⟩ = a := by
        have hh := hget i hi hpli
        rw [hpa] at hh
        injection hh with hh2
        exact hh2.symm
      have hgb : parsed.get ⟨j, hplj⟩ = b := by
        have hh := hget j hj hplj
        rw [hpb] at hh
        injection hh with hh2
        exact hh2.symm
      have hsorted : (List.insertionSort editLe parsed).Sorted editLe :=
        List.sorted_insertionSort editLe parsed
      have hperm : List.Perm (List.insertionSort editLe parsed) parsed :=
        List.perm_insertionSort editLe parsed
      have hsome : (checkOverlaps (List.insertionSort editLe parsed)).isSome := by
        by_cases heq : a = b
        · subst heq
          have hc : 2 ≤ parsed.count a :=
            two_le_count_of_get_pair parsed a i j hpli hplj hij hga hgb
          have hc2 : 2 ≤ (List.insertionSort editLe parsed).count a := by
            rw [hperm.count_eq]
            exact hc
          obtain ⟨i2, j2, hi2, hj2, hij2, hg1, hg2⟩ :=
            exists_get_pair_of_two_le_count _ a hc2
          exact checkOverlaps_isSome_of_violation _ hsorted i2 j2 hi2 hj2 hij2
            (by rw [hg1]; exact hains) (by rw [hg1, hg2]; exact hba)
        · have hma : a ∈ List.insertionSort editLe parsed := by
            rw [hperm.mem_iff, ← hga]
            exact List.get_mem parsed _ _
          have hmb : b ∈ List.insertionSort editLe parsed := by
            rw [hperm.mem_iff, ← hgb]
            exact List.get_mem parsed _ _
          obtain ⟨⟨i2, hi2⟩, hg1⟩ := List.mem_iff_get.mp hma
          obtain ⟨⟨j2, hj2⟩, hg2⟩ := List.mem_iff_get.mp hmb
          have hij2 : i2 ≠ j2 := by
            intro hh
            apply heq
            rw [← hg1, ← hg2]
            subst hh
            rfl
          rcases Nat.lt_or_ge i2 j2 with hlt | hge
          · exact checkOverlaps_isSome_of_violation _ hsorted i2 j2 hi2 hj2 hlt
              (by rw [hg1]; exact hains) (by rw [hg1, hg2]; exact hba)
          · have hlt2 : j2 < i2 := by omega
            exact checkOverlaps_isSome_of_violation _ hsorted j2 i2 hj2 hi2 hlt2
              (by rw [hg2]; exact hbins) (by rw [hg2, hg1]; exact hab)
      obtain ⟨msg, hmsg⟩ := Option.isSome_iff_exists.mp hsome
      simp only [hmsg]
      exact checkOverlaps_some_ne_empty _ msg hmsg
  · intro edits L hne hall
    have hne2 : ¬ edits.isEmpty = true := by
      intro hh
      exact hne (List.isEmpty_iff.mp hh)
    unfold validate_edits
    rw [if_neg hne2]
    obtain ⟨parsed, hp⟩ := parseRawEdits_ok_of_forall edits
      (fun e he => (hall e he).imp fun x hx => hx.1)
    have hallins : ∀ x ∈ List.insertionSort editLe parsed, x.insert = true := by
      intro x hx
      have hx2 : x ∈ parsed :=
        (List.perm_insertionSort editLe parsed).mem_iff.mp hx
      obtain ⟨e, he, hpe⟩ := parseRawEdits_mem edits parsed hp x hx2
      obtain ⟨y, hy1, hy2, _⟩ := hall e he
      rw [hpe] at hy1
      injection hy1 with hxy
      exact hxy ▸ hy2
    simp only [hp, checkOverlaps_all_insert _ hallins]

/-- Closed instance of c4_overlap_detection: the ranges [1,3] and
[3,5] are rejected with a non-empty error, and two inserts at line 1
are accepted. -/
theorem c4_overlap_detection_witness :
    parseOne (([⟨some 1, some 3, some "x\n"⟩, ⟨some 3, some 5, some "y\n"⟩] :
        List RawEdit).get ⟨0, by decide⟩) =
      Except.ok ⟨1, 3, "x\n", false⟩ ∧
    (validate_edits
        [⟨some 1, some 3, some "x\n"⟩, ⟨some 3, some 5, some "y\n"⟩]).2 ≠ "" ∧
    (validate_edits
        [⟨some 1, none, some "a\n"⟩, ⟨some 1, none, some "b\n"⟩]).2 = "" :=
  ⟨by decide,
    c4_overlap_detection.1
      [⟨some 1, some 3, some "x\n"⟩, ⟨some 3, some 5, some "y\n"⟩]
      0 1 (by decide) (by decide) ⟨1, 3, "x\n", false⟩ ⟨3, 5, "y\n", false⟩
      (by decide) (by decide) (by decide) (by decide) (by decide) (by decide)
      (by decide),
    c4_overlap_detection.2
      [⟨some 1, none, some "a\n"⟩, ⟨some 1, none, some "b\n"⟩] 1
      (by decide)
      (by
        intro e he
        rcases List.mem_cons.mp he with rfl | he2
        · exact ⟨⟨1, 0, "a\n", true⟩, by decide, by decide, by decide⟩
        · rcases List.mem_singleton.mp he2 with rfl
          exact ⟨⟨1, 0, "b\n", true⟩, by decide, by decide, by decide⟩)⟩

/-- Parsing a raw edit with an in-range to yields a non-insert. -/
theorem parseOne_range (frm toV : Int) (c : Option String)
    (h1 : 0 ≤ frm) (h2 : frm ≤ toV) :
    parseOne ⟨some frm, some toV, c⟩ =
      Except.ok ⟨frm, toV, c.getD "", false⟩ := by
  simp [parseOne, show ¬ frm < 0 from by omega,
    show ¬ (toV < 0 ∨ toV < frm) from by omega]

/-- Parsing a raw edit without a to yields a pure insert. -/
theorem parseOne_insert (frm : Int) (c : Option String) (h1 : 0 ≤ frm) :
    parseOne ⟨some frm, none, c⟩ =
      Except.ok ⟨frm, frm - 1, c.getD "", true⟩ := by
  simp [parseOne, show ¬ frm < 0 from by omega]

/-- C5 amended: an insert never conflicts when it is the earlier
element of a sorted adjacent pair: in particular an insert at the
same line as a non-insert edit's from (the insert sorts first) is
accepted, in either input order; but an insert whose from lies
strictly inside a non-insert edit's inclusive range
(from < insert_from <= to) IS reported as an overlap, because the
scan only skips a pair whose earlier element is an insert. -/
theorem c5_insert_conflict_amended :
    (∀ (L t : Int) (c d : String), 0 ≤ L → L ≤ t →
      (validate_edits
        [⟨some L, some t, some c⟩, ⟨some L, none, some d⟩]).2 = "" ∧
      (validate_edits
        [⟨some L, none, some d⟩, ⟨some L, some t, some c⟩]).2 = "") ∧
    (∀ (L t f : Int) (c d : String), 0 ≤ L → L < f → f ≤ t →
      (validate_edits
        [⟨some L, some t, some c⟩, ⟨some f, none, some d⟩]).2 ≠ "") := by
  constructor
  · intro L t c d h0 hlt
    have hpA := parseOne_range L t (some c) h0 hlt
    have hpI := parseOne_insert L (some d) h0
    have hnotle : ¬ editLe ⟨L, t, c, false⟩ ⟨L, L - 1, d, true⟩ := by
      simp [editLe]
    have hle : editLe ⟨L, L - 1, d, true⟩ ⟨L, t, c, false⟩ := by
      simp [editLe]
    constructor
    · simp only [validate_edits, parseRawEdits, hpA, hpI]
      simp only [Option.getD_some]
      simp only [List.isEmpty_cons, Bool.false_eq_true, if_false]
      simp only [List.insertionSort, List.orderedInsert]
      rw [if_neg hnotle]
      simp [checkOverlaps]
    · simp only [validate_edits, parseRawEdits, hpA, hpI]
      simp only [Option.getD_some]
      simp only [List.isEmpty_cons, Bool.false_eq_true, if_false]
      simp only [List.insertionSort, List.orderedInsert]
      rw [if_pos hle]
      simp [checkOverlaps]
  · intro L t f c d h0 hlt hle
    have hpA := parseOne_range L t (some c) h0 (by omega)
    have hpI := parseOne_insert f (some d) (by omega)
    have hedle : editLe ⟨L, t, c, false⟩ ⟨f, f - 1, d, true⟩ := by
      simp [editLe]
      omega
    simp only [validate_edits, parseRawEdits, hpA, hpI]
    simp only [Option.getD_some]
    simp only [List.isEmpty_cons, Bool.false_eq_true, if_false]
    simp only [List.insertionSort, List.orderedInsert]
    rw [if_pos hedle]
    simp only [checkOverlaps]
    rw [if_neg (by simp), if_pos (show f ≤ t from hle)]
    simpa using overlapMsg_ne_empty ⟨L, t, c, false⟩ ⟨f, f - 1, d, true⟩

/-- Closed instance of c5_insert_conflict_amended: an insert at the
start line of the replace [1,3] is accepted; an insert at line 2,
strictly inside [1,3], is rejected. -/
theorem c5_insert_conflict_witness :
    (0 : Int) ≤ 1 ∧ (1 : Int) ≤ 3 ∧ (1 : Int) < 2 ∧ (2 : Int) ≤ 3 ∧
    (validate_edits
      [⟨some 1, some 3, some "y\n"⟩, ⟨some 1, none, some "X\n"⟩]).2 = "" ∧
    (validate_edits
      [⟨some 1, some 3, some "y\n"⟩, ⟨some 2, none, some "X\n"⟩]).2 ≠ "" :=
  ⟨by decide, by decide, by decide, by decide,
    (c5_insert_conflict_amended.1 1 3 "y\n" "X\n" (by decide) (by decide)).1,
    c5_insert_conflict_amended.2 1 3 2 "y\n" "X\n" (by decide) (by decide)
      (by decide)⟩

end TextEditor
